import Mathlib

/-!
Shallow embedding of the finance_analyzer categorization and analytics core
(`categorizer.py`, `analytics.py`, `reports.py`).  Python floats are modelled
as exact rationals, Python strings as `List Char` (ASCII semantics for the
character classes used by the regexes), ordered dicts as insertion-ordered
association lists, and `round(x, 2)` as rounding `x * 100` to the nearest
integer (Mathlib `round`; the half-even tie behaviour of Python is never
exercised at a tie point in this development).
-/

attribute [local semireducible] Rat.add Rat.mul Rat.inv Rat.sub

namespace FinanceAnalyzer

/-! ### Character classes (ASCII, mirroring the Python regexes) -/

/-- Whitespace characters matched by Python `\s` in ASCII mode. -/
def isWsC (c : Char) : Bool :=
  c.toNat == 32 || c.toNat == 9 || c.toNat == 10 || c.toNat == 13 || c.toNat == 11 || c.toNat == 12

/-- ASCII digit, as matched by Python `\d` on ASCII input. -/
def isDigitC (c : Char) : Bool :=
  48 ≤ c.toNat && c.toNat ≤ 57

/-- Lowercase ASCII letter, the class `[a-z]`. -/
def isLowerAlphaC (c : Char) : Bool :=
  97 ≤ c.toNat && c.toNat ≤ 122

/-- Members of Python `string.punctuation` (ASCII 33-47, 58-64, 91-96, 123-126). -/
def isPunctC (c : Char) : Bool :=
  (33 ≤ c.toNat && c.toNat ≤ 47) || (58 ≤ c.toNat && c.toNat ≤ 64) ||
  (91 ≤ c.toNat && c.toNat ≤ 96) || (123 ≤ c.toNat && c.toNat ≤ 126)

/-- ASCII lowercasing, modelling `str.lower` on ASCII text. -/
def lowerChar (c : Char) : Char :=
  if 65 ≤ c.toNat ∧ c.toNat ≤ 90 then Char.ofNat (c.toNat + 32) else c

/-- Remove leading whitespace. -/
def dropWs (s : List Char) : List Char := s.dropWhile isWsC

/-- Python `str.strip()`: drop whitespace at both ends. -/
def pyStrip (s : List Char) : List Char :=
  ((dropWs s.reverse).reverse : List Char) |> dropWs

/-- Split into maximal non-whitespace words (accumulator holds the current
word reversed). -/
def wordsAux : List Char → List Char → List (List Char)
  | [], cur => if cur.isEmpty then [] else [cur.reverse]
  | c :: cs, cur =>
    if isWsC c then
      if cur.isEmpty then wordsAux cs [] else cur.reverse :: wordsAux cs []
    else wordsAux cs (c :: cur)

/-- Join words with single spaces. -/
def joinWords : List (List Char) → List Char
  | [] => []
  | [w] => w
  | w :: ws => w ++ ' ' :: joinWords ws

/-- Combined effect of `re.sub(r"\s+", " ", s)` followed by `.strip()`. -/
def collapseWs (s : List Char) : List Char := joinWords (wordsAux s [])

/-- Replace each maximal run of digits by a single space, carrying a flag for
"previous character was a digit"; models `re.sub(r"\d+", " ", s)`. -/
def subDigitsAux : Bool → List Char → List Char
  | _, [] => []
  | p, c :: cs =>
    if isDigitC c then (if p then [] else [' ']) ++ subDigitsAux true cs
    else c :: subDigitsAux false cs

/-- Top-level entry of `subDigitsAux`. -/
def subDigits (s : List Char) : List Char := subDigitsAux false s

/-- Replace every character outside `[a-z\s]` by a space; models
`re.sub(r"[^a-z\s]", " ", s)`. -/
def nonLetterToSpace (s : List Char) : List Char :=
  s.map (fun c => if isLowerAlphaC c || isWsC c then c else ' ')

/-- Does `pat` occur at the start of `s`? -/
def listStartsWith : List Char → List Char → Bool
  | [], _ => true
  | _ :: _, [] => false
  | a :: as, b :: bs => a == b && listStartsWith as bs

/-- Does `pat` occur as a contiguous substring of `s`?  Models Python
`pat in s` for strings. -/
def listContainsSub (pat : List Char) : List Char → Bool
  | [] => pat.isEmpty
  | c :: rest => listStartsWith pat (c :: rest) || listContainsSub pat rest

/-! ### Insertion-ordered association lists (Python dict model) -/

/-- Lookup in an association list. -/
def findA {α β : Type} [DecidableEq α] : List (α × β) → α → Option β
  | [], _ => none
  | (k, v) :: rest, k' => if k' = k then some v else findA rest k'

/-- Upsert preserving insertion order: an existing key is updated in place, a
new key is appended at the end, exactly as in a Python dict. -/
def updateA {α β : Type} [DecidableEq α] (m : List (α × β)) (k : α) (f : Option β → β) :
    List (α × β) :=
  match m with
  | [] => [(k, f none)]
  | (k', v) :: rest => if k = k' then (k', f (some v)) :: rest else (k', v) :: updateA rest k f

/-! ### Sorting helpers and numeric utilities -/

/-- Insert into an ascending list of rationals. -/
def insertQ (x : ℚ) : List ℚ → List ℚ
  | [] => [x]
  | y :: ys => if x ≤ y then x :: y :: ys else y :: insertQ x ys

/-- Ascending sort of rationals (used only for the median, where stability is
irrelevant). -/
def sortQ : List ℚ → List ℚ
  | [] => []
  | x :: xs => insertQ x (sortQ xs)

/-- Python `statistics.median`: sort, take the middle element (odd length) or
the mean of the two middle elements (even length). -/
def median (l : List ℚ) : ℚ :=
  let s := sortQ l
  let n := s.length
  if n % 2 = 1 then s.getD (n / 2) 0
  else (s.getD (n / 2 - 1) 0 + s.getD (n / 2) 0) / 2

/-- Python `round(x, 2)` modelled over ℚ. -/
def round2 (q : ℚ) : ℚ := ((round (q * 100) : ℤ) : ℚ) / 100

/-! ### Data model (`data_loader.Transaction`) -/

/-- Calendar date; only year and month matter to the analytics core. -/
structure Date where
  year : ℕ
  month : ℕ
  day : ℕ
deriving DecidableEq, Repr

/-- The transaction record produced by the ingestion layer. -/
structure Transaction where
  date : Date
  description : List Char
  amount : ℚ
  account : Option String := none
  category : Option String := none
deriving DecidableEq, Repr

/-- Python truthiness of an `Optional[str]`: `None` and `""` are falsy. -/
def pyTruthy : Option String → Bool
  | none => false
  | some s => !(s == "")

/-- Python `o or default` on an `Optional[str]` against a string default. -/
def pyOrStr (o : Option String) (d : String) : String :=
  if pyTruthy o then o.getD d else d

/-- Expression `t.category or "Other"` used by the aggregation functions. -/
def catOr (o : Option String) : String := pyOrStr o "Other"

/-- Embeds `analytics.month_key`: the `YYYY-MM` bucket, modelled as the
(year, month) pair (injective on four-digit years, as produced by the code). -/
def month_key (d : Date) : ℕ × ℕ := (d.year, d.month)

/-! ### Categorizer (`categorizer.py`) -/

/-- Embeds `categorizer._normalize`: lowercase, replace every punctuation
character with a space, collapse whitespace runs, trim. -/
def normalizeCat (s : List Char) : List Char :=
  collapseWs ((s.map lowerChar).map (fun c => if isPunctC c then ' ' else c))

/-- Per-keyword cleaning `kw.strip().lower()` from the rule flattening loop. -/
def cleanKw (kw : List Char) : List Char := (pyStrip kw).map lowerChar

/-- One step of the rule flattening: add the keywords of one category,
keeping only first occurrences (`if kw and kw not in kw_to_cat`). -/
def addKws (m : List (List Char × String)) (cat : String) (kws : List (List Char)) :
    List (List Char × String) :=
  kws.foldl
    (fun m kw =>
      let k := cleanKw kw
      if k ≠ [] ∧ findA m k = none then m ++ [(k, cat)] else m) m

/-- Embeds the `kw_to_cat` construction: flatten the rule set into a single
keyword-to-category lookup with first-occurrence-wins semantics. -/
def buildLookup (rules : List (String × List (List Char))) : List (List Char × String) :=
  rules.foldl (fun m p => addKws m p.1 p.2) []

/-- The `merchant_tokens` list: keys of the lookup longer than 2 characters,
in insertion order (these form the regex alternation). -/
def longTokens (m : List (List Char × String)) : List (List Char) :=
  (m.map (·.1)).filter (fun k => 2 < k.length)

/-- First alternative of the pattern that matches at the current position. -/
def firstAlt (kws : List (List Char)) (s : List Char) : Option (List Char) :=
  kws.find? (fun k => listStartsWith k s)

/-- Leftmost-position regex search of the alternation `(kw1|kw2|...)`: scan
positions left to right, and at each position try the alternatives in pattern
order; models `merchant_pattern.search(norm).group(1)`. -/
def regexSearch (kws : List (List Char)) : List Char → Option (List Char)
  | [] => firstAlt kws []
  | c :: rest =>
    match firstAlt kws (c :: rest) with
    | some t => some t
    | none => regexSearch kws rest

/-- The category chosen for a normalized description by the full matching
chain of `categorize_transactions`: primary substring scan, regex fallback,
income heuristic; returns the final Python-truthy choice or `none`. -/
def chooseCat (kwcat : List (List Char × String)) (longkws : List (List Char))
    (amount : ℚ) (norm : List Char) : Option String :=
  let primary := (kwcat.find? (fun p => listContainsSub p.1 norm)).map (·.2)
  let afterFallback :=
    if pyTruthy primary then primary
    else
      match regexSearch longkws norm with
      | some tok => findA kwcat tok
      | none => primary
  if pyTruthy afterFallback then afterFallback
  else if 0 < amount then some "Income"
  else afterFallback

/-- Processing of a single transaction inside the loop of
`categorize_transactions`. -/
def categorizeOne (kwcat : List (List Char × String)) (longkws : List (List Char))
    (d : String) (t : Transaction) : Transaction :=
  if pyTruthy t.category then t
  else
    let c := pyOrStr (chooseCat kwcat longkws t.amount (normalizeCat t.description)) d
    { t with category := some c }

/-- Embeds `categorizer.categorize_transactions` (the in-place mutation is
modelled as returning the updated list). -/
def categorize_transactions (txns : List Transaction)
    (rules : List (String × List (List Char))) (d : String) : List Transaction :=
  let kwcat := buildLookup rules
  txns.map (categorizeOne kwcat (longTokens kwcat) d)

/-- Variant of the per-transaction choice with the regex fallback pass
removed; reference algorithm for the fallback-is-redundant claim. -/
def chooseCatNF (kwcat : List (List Char × String)) (amount : ℚ) (norm : List Char) :
    Option String :=
  let primary := (kwcat.find? (fun p => listContainsSub p.1 norm)).map (·.2)
  if pyTruthy primary then primary
  else if 0 < amount then some "Income"
  else primary

/-- Per-transaction categorization with the fallback pass removed. -/
def categorizeOneNF (kwcat : List (List Char × String)) (d : String) (t : Transaction) :
    Transaction :=
  if pyTruthy t.category then t
  else
    let c := pyOrStr (chooseCatNF kwcat t.amount (normalizeCat t.description)) d
    { t with category := some c }

/-- The same categorization algorithm with the regex fallback pass removed;
the comparison point for the refinement claim. -/
def categorizeNoFallback (txns : List Transaction)
    (rules : List (String × List (List Char))) (d : String) : List Transaction :=
  txns.map (categorizeOneNF (buildLookup rules) d)

/-! ### Analytics (`analytics.py`) -/

/-- Output record of `summarize_income_expense`. -/
structure Totals where
  income : ℚ
  expense : ℚ
  net : ℚ
deriving DecidableEq, Repr

/-- Embeds `analytics.summarize_income_expense`: accumulate unrounded, round
each of income, expense and net once at the output boundary. -/
def summarize_income_expense (txns : List Transaction) : Totals :=
  let income := ((txns.filter (fun t => decide (0 < t.amount))).map (·.amount)).sum
  let expense := -((txns.filter (fun t => decide (t.amount < 0))).map (·.amount)).sum
  { income := round2 income, expense := round2 expense, net := round2 (income - expense) }

/-- Stable descending insertion by the summed amount (second component);
matches Python's stable `sorted(..., key=lambda kv: kv[1], reverse=True)`. -/
def insertTM (x : List Char × ℚ) : List (List Char × ℚ) → List (List Char × ℚ)
  | [] => [x]
  | y :: ys => if y.2 ≤ x.2 then x :: y :: ys else y :: insertTM x ys

/-- Stable descending sort for the merchant ranking. -/
def sortTM : List (List Char × ℚ) → List (List Char × ℚ)
  | [] => []
  | x :: xs => insertTM x (sortTM xs)

/-- The per-description spend accumulation of `top_merchants`. -/
def merchantSpend (txns : List Transaction) : List (List Char × ℚ) :=
  txns.foldl
    (fun m t =>
      if t.amount < 0 then updateA m t.description (fun o => o.getD 0 + -t.amount) else m) []

/-- Embeds `analytics.top_merchants`: group `-amount` of negative transactions
by raw description, sort by descending total (stable), truncate to `n`, round. -/
def top_merchants (txns : List Transaction) (n : ℕ) : List (List Char × ℚ) :=
  ((sortTM (merchantSpend txns)).take n).map (fun p => (p.1, round2 p.2))

/-- Embeds `analytics._normalize_description`: lowercase, strip digit runs,
replace non-letters with spaces, collapse whitespace. -/
def normalize_description (s : List Char) : List Char :=
  collapseWs (nonLetterToSpace (subDigits (s.map lowerChar)))

/-- The grouping key of `detect_recurring`:
`_normalize_description(t.description) or t.description.lower().strip()`. -/
def recurringKey (desc : List Char) : List Char :=
  let n := normalize_description desc
  if n = [] then pyStrip (desc.map lowerChar) else n

/-- Accumulator state of the grouping loop of `detect_recurring`: the
`by_desc_month` map and the `display_names` counters. -/
def RecGroups : Type :=
  List (List Char × List ((ℕ × ℕ) × List ℚ)) × List (List Char × List (List Char × ℕ))

/-- One step of the grouping loop of `detect_recurring`. -/
def addTxnGroups (acc : RecGroups) (t : Transaction) : RecGroups :=
  if t.amount < 0 then
    let k := recurringKey t.description
    let m := month_key t.date
    (updateA acc.1 k (fun o => updateA (o.getD []) m (fun l => l.getD [] ++ [-t.amount])),
     updateA acc.2 k (fun o => updateA (o.getD []) t.description (fun n => n.getD 0 + 1)))
  else acc

/-- The grouping phase of `detect_recurring` over a transaction list. -/
def recGroups (txns : List Transaction) : RecGroups :=
  txns.foldl addTxnGroups ([], [])

/-- The tolerance window of `detect_recurring`:
`max(abs(med) * tolerance, 1.0) if med else 1.0`. -/
def toleranceWindow (med tol : ℚ) : ℚ :=
  if med ≠ 0 then max (|med| * tol) 1 else 1

/-- `Counter.most_common(1)[0][0]`: the first-seen key of maximal count. -/
def mostCommon : List (List Char × ℕ) → List Char
  | [] => []
  | c :: rest => (rest.foldl (fun b p => if b.2 < p.2 then p else b) c).1

/-- The per-group body of the loop of `detect_recurring`: per-month medians,
the month floor, the tolerance filter, the accepted-month floor, the typical
amount and the display label. -/
def processGroup (mm : ℕ) (tol : ℚ) (names : List (List Char × List (List Char × ℕ)))
    (g : List Char × List ((ℕ × ℕ) × List ℚ)) : Option (List Char × ℚ × ℕ) :=
  let monthAmounts := (g.2.filter (fun p => !p.2.isEmpty)).map (fun p => (p.1, median p.2))
  if monthAmounts.length < mm then none
  else
    let vals := monthAmounts.map (·.2)
    let med := median vals
    let tolAmt := toleranceWindow med tol
    let accepted := vals.filter (fun a => decide (|a - med| ≤ tolAmt))
    if accepted.length < mm then none
    else
      let typical := round2 (accepted.sum / (accepted.length : ℚ))
      some (mostCommon ((findA names g.1).getD []), typical, accepted.length)

/-- Stable insertion for the final sort of `detect_recurring`, ascending by
the Python key `(-month_count, -typical_amount)`. -/
def insertRec (x : List Char × ℚ × ℕ) :
    List (List Char × ℚ × ℕ) → List (List Char × ℚ × ℕ)
  | [] => [x]
  | y :: ys =>
    if y.2.2 < x.2.2 ∨ (x.2.2 = y.2.2 ∧ y.2.1 ≤ x.2.1) then x :: y :: ys
    else y :: insertRec x ys

/-- Stable sort by descending month count, then descending typical amount. -/
def sortRec : List (List Char × ℚ × ℕ) → List (List Char × ℚ × ℕ)
  | [] => []
  | x :: xs => insertRec x (sortRec xs)

/-- Embeds `analytics.detect_recurring`. -/
def detect_recurring (txns : List Transaction) (mm : ℕ) (tol : ℚ) :
    List (List Char × ℚ × ℕ) :=
  let g := recGroups txns
  sortRec (g.1.filterMap (processGroup mm tol g.2))

/-! ### Budget usage (`reports.py`) -/

/-- The whole-window per-category expense accumulation of
`calculate_budget_usage` (note: no month filter appears in the source). -/
def spendPerCategory (txns : List Transaction) : List (String × ℚ) :=
  txns.foldl
    (fun m t =>
      if t.amount < 0 then updateA m (catOr t.category) (fun o => o.getD 0 + -t.amount) else m)
    []

/-- One row of the budget usage report. -/
structure UsageEntry where
  category : String
  spent : ℚ
  limit : ℚ
  percent_used : ℚ
deriving DecidableEq, Repr

/-- The entry built for one `(category, limit)` pair of the budget mapping. -/
def usageEntryFor (spend : List (String × ℚ)) (c : String) (l : ℚ) : UsageEntry :=
  let spent := round2 ((findA spend c).getD 0)
  { category := c, spent := spent, limit := round2 l,
    percent_used :=
      if 0 < l then round2 (spent / l * 100) else if 0 < spent then 100 else 0 }

/-- Embeds `reports.calculate_budget_usage`; a `none` limit models a Python
`None` entry, which the loop skips. -/
def calculate_budget_usage (txns : List Transaction)
    (budgets : List (String × Option ℚ)) : List UsageEntry :=
  if budgets.isEmpty then []
  else budgets.filterMap (fun p => p.2.map (usageEntryFor (spendPerCategory txns) p.1))

/-! ### Concrete inputs used by the claim theorems -/

/-- Four monthly charges of a single merchant, amounts 50.00, 50.50, 49.80,
50.10 (the recurring-detection example of the specification). -/
def recTxns : List Transaction :=
  [{ date := ⟨2024, 1, 5⟩, description := "Acme Sub".toList, amount := -50 },
   { date := ⟨2024, 2, 5⟩, description := "Acme Sub".toList, amount := -101/2 },
   { date := ⟨2024, 3, 5⟩, description := "Acme Sub".toList, amount := -249/5 },
   { date := ⟨2024, 4, 5⟩, description := "Acme Sub".toList, amount := -501/10 }]

/-- Rule set declaring the keyword "coffee" under two categories, Dining
first. -/
def coffeeRules : List (String × List (List Char)) :=
  [("Dining", ["coffee".toList]), ("Shopping", ["coffee".toList])]

/-- An uncategorized transaction described "Blue Bottle Coffee". -/
def coffeeTxn : Transaction :=
  { date := ⟨2024, 1, 3⟩, description := "Blue Bottle Coffee".toList, amount := -4 }

/-- A transaction whose category field is set to the empty string. -/
def emptyCatTxn : Transaction :=
  { date := ⟨2024, 1, 3⟩, description := "coffee shop".toList, amount := -5,
    category := some "" }

/-- Rule set with an empty category name declared first (its keyword "zed"
matches later in the description than the other category's keyword "abc"). -/
def emptyCatRules : List (String × List (List Char)) :=
  [("", ["zed".toList]), ("Dining", ["abc".toList])]

/-- An uncategorized transaction matching both keywords of `emptyCatRules`. -/
def abcZedTxn : Transaction :=
  { date := ⟨2024, 1, 3⟩, description := "abc zed".toList, amount := -5 }

/-- Two Food expenses in different months (first transaction in January). -/
def budgetTxns : List Transaction :=
  [{ date := ⟨2024, 1, 5⟩, description := "Grocer".toList, amount := -10,
     category := some "Food" },
   { date := ⟨2024, 2, 5⟩, description := "Grocer".toList, amount := -20,
     category := some "Food" }]

/-- A budget of 100 for the Food category. -/
def budgetFood : List (String × Option ℚ) := [("Food", some 100)]

/-- Spends A 30, B 50, C 50, in that order. -/
def tmTxns : List Transaction :=
  [{ date := ⟨2024, 1, 1⟩, description := "A".toList, amount := -30 },
   { date := ⟨2024, 1, 2⟩, description := "B".toList, amount := -50 },
   { date := ⟨2024, 1, 3⟩, description := "C".toList, amount := -50 }]

/-- Income 0.006 and expense 0.004: sub-cent amounts whose rounded totals
break the post-rounding net identity. -/
def subCentTxns : List Transaction :=
  [{ date := ⟨2024, 1, 1⟩, description := "i".toList, amount := 3/500 },
   { date := ⟨2024, 1, 2⟩, description := "e".toList, amount := -1/250 }]

/-- Cent-valued transactions for the amended net identity. -/
def centTxns : List Transaction :=
  [{ date := ⟨2024, 1, 1⟩, description := "i".toList, amount := 5 },
   { date := ⟨2024, 1, 2⟩, description := "e".toList, amount := -3/2 }]

/-- A single expense of 5 in the Food category. -/
def zeroLimitTxns : List Transaction :=
  [{ date := ⟨2024, 1, 5⟩, description := "Grocer".toList, amount := -5,
     category := some "Food" }]

/-- A zero budget limit for the Food category. -/
def zeroLimitBudget : List (String × Option ℚ) := [("Food", some 0)]

/-! ### Association-list lemmas -/

theorem findA_append_of_none {α β : Type} [DecidableEq α] {l₁ : List (α × β)}
    (l₂ : List (α × β)) (k : α) (h : findA l₁ k = none) :
    findA (l₁ ++ l₂) k = findA l₂ k := by
  induction l₁ with
  | nil => simp
  | cons hd tl ih =>
    obtain ⟨a, v⟩ := hd
    by_cases hk : k = a
    · simp [findA, hk] at h
    · simp only [findA, List.cons_append, if_neg hk] at h ⊢
      exact ih h

theorem findA_append_of_some {α β : Type} [DecidableEq α] {l₁ : List (α × β)}
    (l₂ : List (α × β)) {k : α} {v : β} (h : findA l₁ k = some v) :
    findA (l₁ ++ l₂) k = some v := by
  induction l₁ with
  | nil => simp [findA] at h
  | cons hd tl ih =>
    obtain ⟨a, w⟩ := hd
    by_cases hk : k = a
    · simp only [findA, List.cons_append, if_pos hk] at h ⊢
      exact h
    · simp only [findA, List.cons_append, if_neg hk] at h ⊢
      exact ih h

theorem findA_singleton_self {α β : Type} [DecidableEq α] (k : α) (v : β) :
    findA [(k, v)] k = some v := by
  simp [findA]

theorem findA_singleton_ne {α β : Type} [DecidableEq α] {k a : α} (v : β) (h : k ≠ a) :
    findA [(a, v)] k = none := by
  simp [findA, h]

theorem findA_updateA {α β : Type} [DecidableEq α] (m : List (α × β)) (k : α)
    (f : Option β → β) (k' : α) :
    findA (updateA m k f) k' = if k' = k then some (f (findA m k)) else findA m k' := by
  induction m with
  | nil =>
    by_cases h : k' = k <;> simp [updateA, findA, h]
  | cons hd tl ih =>
    obtain ⟨a, v⟩ := hd
    by_cases hka : k = a
    · subst hka
      by_cases h : k' = k <;> simp [updateA, findA, h]
    · by_cases h : k' = a
      · subst h
        have hne : ¬ k' = k := fun hc => hka hc.symm
        simp [updateA, findA, hka, hne]
      · simp only [updateA, if_neg hka]
        rw [show findA ((a, v) :: updateA tl k f) k' = findA (updateA tl k f) k' from by
            simp [findA, h],
          ih, show findA ((a, v) :: tl) k = findA tl k from by simp [findA, hka],
          show findA ((a, v) :: tl) k' = findA tl k' from by simp [findA, h]]

/-! ### Categorizer lemmas: first-occurrence-wins lookup construction -/

theorem addKws_preserves_some {c : String} {kws : List (List Char)}
    {m : List (List Char × String)} {k : List Char} {v : String}
    (h : findA m k = some v) : findA (addKws m c kws) k = some v := by
  induction kws generalizing m with
  | nil => simpa [addKws] using h
  | cons kw rest ih =>
    show findA (addKws _ c rest) k = some v
    by_cases hg : cleanKw kw ≠ [] ∧ findA m (cleanKw kw) = none
    · simp only [addKws, List.foldl_cons, if_pos hg]
      exact ih (findA_append_of_some _ h)
    · simp only [addKws, List.foldl_cons, if_neg hg]
      exact ih h

theorem addKws_none_of_not_mem {c : String} {kws : List (List Char)}
    {m : List (List Char × String)} {k : List Char}
    (h : findA m k = none) (hk : k ∉ kws.map cleanKw) :
    findA (addKws m c kws) k = none := by
  induction kws generalizing m with
  | nil => simpa [addKws] using h
  | cons kw rest ih =>
    have hne : cleanKw kw ≠ k := fun hc => hk (by simp [← hc])
    have hrest : k ∉ rest.map cleanKw := fun hc => hk (by simp [hc])
    by_cases hg : cleanKw kw ≠ [] ∧ findA m (cleanKw kw) = none
    · simp only [addKws, List.foldl_cons, if_pos hg]
      refine ih ?_ hrest
      rw [findA_append_of_none _ _ h]
      exact findA_singleton_ne _ (fun hc => hne hc.symm)
    · simp only [addKws, List.foldl_cons, if_neg hg]
      exact ih h hrest

theorem addKws_finds_first {c : String} {kws : List (List Char)}
    {m : List (List Char × String)} {k : List Char}
    (h : findA m k = none) (hk0 : k ≠ []) (hk : k ∈ kws.map cleanKw) :
    findA (addKws m c kws) k = some c := by
  induction kws generalizing m with
  | nil => simp at hk
  | cons kw rest ih =>
    by_cases hkw : cleanKw kw = k
    · have hg : cleanKw kw ≠ [] ∧ findA m (cleanKw kw) = none := by
        constructor
        · rw [hkw]; exact hk0
        · rw [hkw]; exact h
      simp only [addKws, List.foldl_cons, if_pos hg]
      have hfound : findA (m ++ [(cleanKw kw, c)]) k = some c := by
        rw [findA_append_of_none _ _ h, hkw]
        exact findA_singleton_self k c
      exact addKws_preserves_some hfound
    · have hrest : k ∈ rest.map cleanKw := by
        rcases List.mem_map.mp hk with ⟨w, hw, hcw⟩
        rcases List.mem_cons.mp hw with hw1 | hw1
        · exact absurd (hw1 ▸ hcw) hkw
        · exact List.mem_map.mpr ⟨w, hw1, hcw⟩
      by_cases hg : cleanKw kw ≠ [] ∧ findA m (cleanKw kw) = none
      · simp only [addKws, List.foldl_cons, if_pos hg]
        refine ih ?_ hrest
        rw [findA_append_of_none _ _ h]
        exact findA_singleton_ne _ (fun hc => hkw hc.symm)
      · simp only [addKws, List.foldl_cons, if_neg hg]
        exact ih h hrest

theorem buildFold_none {k : List Char} :
    ∀ (rs : List (String × List (List Char))) (m : List (List Char × String)),
      (∀ p ∈ rs, k ∉ p.2.map cleanKw) → findA m k = none →
      findA (rs.foldl (fun m p => addKws m p.1 p.2) m) k = none := by
  intro rs
  induction rs with
  | nil => intro m _ h; simpa using h
  | cons p rest ih =>
    intro m hall h
    simp only [List.foldl_cons]
    exact ih _ (fun q hq => hall q (List.mem_cons_of_mem _ hq))
      (addKws_none_of_not_mem h (hall p (List.mem_cons_self _ _)))

theorem buildFold_some {k : List Char} {v : String} :
    ∀ (rs : List (String × List (List Char))) (m : List (List Char × String)),
      findA m k = some v →
      findA (rs.foldl (fun m p => addKws m p.1 p.2) m) k = some v := by
  intro rs
  induction rs with
  | nil => intro m h; simpa using h
  | cons p rest ih =>
    intro m h
    simp only [List.foldl_cons]
    exact ih _ (addKws_preserves_some h)

/-- C4: when the same cleaned keyword is declared under several categories,
the flattened lookup of `categorize_transactions` resolves it to the category
declared earliest; in particular the rule set Dining-then-Shopping, both
declaring "coffee", categorizes "Blue Bottle Coffee" as Dining. -/
theorem C4_first_occurrence_wins :
    (∀ (pre : List (String × List (List Char))) (c : String) (kws : List (List Char))
        (post : List (String × List (List Char))) (k : List Char),
        k ≠ [] → k ∈ kws.map cleanKw → (∀ p ∈ pre, k ∉ p.2.map cleanKw) →
        findA (buildLookup (pre ++ (c, kws) :: post)) k = some c)
    ∧ categorize_transactions [coffeeTxn] coffeeRules "Other"
        = [{ coffeeTxn with category := some "Dining" }] := by
  constructor
  · intro pre c kws post k hk0 hkin hpre
    unfold buildLookup
    rw [List.foldl_append, List.foldl_cons]
    exact buildFold_some post _
      (addKws_finds_first (buildFold_none pre [] hpre rfl) hk0 hkin)
  · decide

/-- Witness for C4 at the concrete two-category rule set. -/
theorem C4_witness :
    findA (buildLookup coffeeRules) ("coffee".toList) = some "Dining" := by
  have h := C4_first_occurrence_wins.1 [] "Dining" ["coffee".toList]
    [("Shopping", ["coffee".toList])] ("coffee".toList)
    (by decide) (by decide) (by intro p hp; simp at hp)
  simpa [coffeeRules] using h

/-! ### Regex fallback soundness -/

theorem listStartsWith_contains {t : List Char} :
    ∀ {s : List Char}, listStartsWith t s = true → listContainsSub t s = true := by
  intro s hs
  cases s with
  | nil =>
    cases t with
    | nil => simp [listContainsSub]
    | cons a as => simp [listStartsWith] at hs
  | cons c rest => simp [listContainsSub, hs]

theorem listContainsSub_cons {t : List Char} {c : Char} {rest : List Char}
    (h : listContainsSub t rest = true) : listContainsSub t (c :: rest) = true := by
  simp [listContainsSub, h]

theorem firstAlt_sound {kws : List (List Char)} {s t : List Char}
    (h : firstAlt kws s = some t) : t ∈ kws ∧ listStartsWith t s = true := by
  unfold firstAlt at h
  refine ⟨List.mem_of_find?_eq_some h, ?_⟩
  simpa using List.find?_some h

theorem regexSearch_sound {kws : List (List Char)} :
    ∀ {s t : List Char}, regexSearch kws s = some t →
      t ∈ kws ∧ listContainsSub t s = true := by
  intro s
  induction s with
  | nil =>
    intro t h
    have h2 := firstAlt_sound (s := []) h
    exact ⟨h2.1, listStartsWith_contains h2.2⟩
  | cons c rest ih =>
    intro t h
    unfold regexSearch at h
    cases hfa : firstAlt kws (c :: rest) with
    | some u =>
      rw [hfa] at h
      cases h
      have h2 := firstAlt_sound hfa
      exact ⟨h2.1, listStartsWith_contains h2.2⟩
    | none =>
      rw [hfa] at h
      have h2 := ih h
      exact ⟨h2.1, listContainsSub_cons h2.2⟩

/-! ### Values of the flattened lookup are declared category names -/

theorem addKws_vals {c : String} {kws : List (List Char)}
    {m : List (List Char × String)} {q : List Char × String} :
    q ∈ addKws m c kws → q ∈ m ∨ q.2 = c := by
  induction kws generalizing m with
  | nil => intro h; exact Or.inl (by simpa [addKws] using h)
  | cons kw rest ih =>
    intro h
    by_cases hg : cleanKw kw ≠ [] ∧ findA m (cleanKw kw) = none
    · simp only [addKws, List.foldl_cons, if_pos hg] at h
      rcases ih h with h2 | h2
      · rcases List.mem_append.mp h2 with h3 | h3
        · exact Or.inl h3
        · right
          have : q = (cleanKw kw, c) := by simpa using h3
          rw [this]
      · exact Or.inr h2
    · simp only [addKws, List.foldl_cons, if_neg hg] at h
      exact ih h

theorem buildFold_vals {q : List Char × String} :
    ∀ (rs : List (String × List (List Char))) (m : List (List Char × String)),
      q ∈ rs.foldl (fun m p => addKws m p.1 p.2) m →
      q ∈ m ∨ ∃ p ∈ rs, q.2 = p.1 := by
  intro rs
  induction rs with
  | nil => intro m h; exact Or.inl (by simpa using h)
  | cons p rest ih =>
    intro m h
    simp only [List.foldl_cons] at h
    rcases ih _ h with h2 | h2
    · rcases addKws_vals h2 with h3 | h3
      · exact Or.inl h3
      · exact Or.inr ⟨p, List.mem_cons_self _ _, h3⟩
    · rcases h2 with ⟨p', hp', hv⟩
      exact Or.inr ⟨p', List.mem_cons_of_mem _ hp', hv⟩

theorem buildLookup_vals {rules : List (String × List (List Char))}
    {q : List Char × String} (h : q ∈ buildLookup rules) : ∃ p ∈ rules, q.2 = p.1 := by
  rcases buildFold_vals rules [] h with h2 | h2
  · simp at h2
  · exact h2

theorem longTokens_mem {m : List (List Char × String)} {tok : List Char}
    (h : tok ∈ longTokens m) : ∃ c, (tok, c) ∈ m := by
  have h2 := List.mem_filter.mp h
  rcases List.mem_map.mp h2.1 with ⟨p, hp, hfst⟩
  exact ⟨p.2, by rwa [show (tok, p.2) = p from Prod.ext hfst.symm rfl]⟩

/-! ### Per-transaction categorization lemmas -/

/-- Abbreviation for setting the category field of a transaction. -/
def recat (t : Transaction) (c : String) : Transaction := { t with category := some c }

theorem categorizeOne_of_truthy {kwcat : List (List Char × String)}
    {longkws : List (List Char)} {d : String} {t : Transaction}
    (h : pyTruthy t.category = true) : categorizeOne kwcat longkws d t = t := by
  simp [categorizeOne, h]

theorem categorizeOne_of_falsy {kwcat : List (List Char × String)}
    {longkws : List (List Char)} {d : String} {t : Transaction}
    (h : ¬ pyTruthy t.category = true) :
    categorizeOne kwcat longkws d t
      = recat t (pyOrStr (chooseCat kwcat longkws t.amount (normalizeCat t.description)) d) := by
  simp [categorizeOne, recat, h]

theorem categorizeOne_skips {kwcat : List (List Char × String)}
    {longkws : List (List Char)} {d : String} {t : Transaction}
    (h : ∃ s, t.category = some s ∧ s ≠ "") : categorizeOne kwcat longkws d t = t := by
  rcases h with ⟨s, hs, hne⟩
  exact categorizeOne_of_truthy (by simp [pyTruthy, hs, hne])

theorem categorizeOne_idem (kwcat : List (List Char × String)) (longkws : List (List Char))
    (d : String) (t : Transaction) :
    categorizeOne kwcat longkws d (categorizeOne kwcat longkws d t)
      = categorizeOne kwcat longkws d t := by
  by_cases h : pyTruthy t.category = true
  · rw [categorizeOne_of_truthy h, categorizeOne_of_truthy h]
  · rw [categorizeOne_of_falsy h]
    by_cases hv : pyOrStr (chooseCat kwcat longkws t.amount (normalizeCat t.description)) d = ""
    · have h2 : ¬ pyTruthy (Transaction.category
          (recat t (pyOrStr (chooseCat kwcat longkws t.amount (normalizeCat t.description)) d)))
            = true := by
        simp [pyTruthy, recat, hv]
      rw [categorizeOne_of_falsy h2]
      rfl
    · exact categorizeOne_of_truthy (by simp [pyTruthy, recat, hv])

/-- C5 amended: a transaction whose category is a non-empty string is left
unchanged, and re-running categorization on the output of a run changes no
transaction (the original claim fails only for a category set to the empty
string, which Python truthiness treats as unset). -/
theorem C5_idempotence :
    (∀ (kwcat : List (List Char × String)) (longkws : List (List Char)) (d : String)
        (t : Transaction), (∃ s, t.category = some s ∧ s ≠ "") →
        categorizeOne kwcat longkws d t = t)
    ∧ (∀ (txns : List Transaction) (rules : List (String × List (List Char))) (d : String),
        categorize_transactions (categorize_transactions txns rules d) rules d
          = categorize_transactions txns rules d) := by
  refine ⟨fun kwcat longkws d t h => categorizeOne_skips h, fun txns rules d => ?_⟩
  simp only [categorize_transactions, List.map_map]
  exact List.map_congr_left fun t _ => categorizeOne_idem _ _ _ t

/-- Counterexample to C5 as stated: a transaction whose category field is set
(to the empty string) is rewritten by the categorizer. -/
theorem C5_cex :
    (∃ s, emptyCatTxn.category = some s)
    ∧ categorize_transactions [emptyCatTxn] coffeeRules "Other" ≠ [emptyCatTxn] :=
  ⟨⟨"", rfl⟩, by decide⟩

/-- Witness for C5 at a transaction already labelled Dining. -/
theorem C5_witness :
    categorizeOne (buildLookup coffeeRules) (longTokens (buildLookup coffeeRules)) "Other"
        { coffeeTxn with category := some "Dining" }
      = { coffeeTxn with category := some "Dining" } :=
  C5_idempotence.1 _ _ _ _ ⟨"Dining", rfl, by decide⟩

/-! ### Fallback redundancy -/

theorem chooseCat_no_fallback {rules : List (String × List (List Char))}
    (hr : ∀ p ∈ rules, p.1 ≠ "") (amt : ℚ) (norm : List Char) :
    chooseCat (buildLookup rules) (longTokens (buildLookup rules)) amt norm
      = chooseCatNF (buildLookup rules) amt norm := by
  unfold chooseCat chooseCatNF
  cases hfind : (buildLookup rules).find? (fun p => listContainsSub p.1 norm) with
  | some p =>
    have hp : p ∈ buildLookup rules := List.mem_of_find?_eq_some hfind
    rcases buildLookup_vals hp with ⟨q, hq, hv⟩
    have hne : p.2 ≠ "" := hv ▸ hr q hq
    have htr : pyTruthy (some p.2) = true := by simp [pyTruthy, hne]
    simp [hfind, htr]
  | none =>
    cases hrs : regexSearch (longTokens (buildLookup rules)) norm with
    | some tok =>
      exfalso
      have h2 := regexSearch_sound hrs
      rcases longTokens_mem h2.1 with ⟨c, hc⟩
      have h3 := List.find?_eq_none.mp hfind _ hc
      simp only [Bool.not_eq_true] at h3
      rw [h2.2] at h3
      exact Bool.true_eq_false.mp h3
    | none =>
      simp [hfind, hrs, pyTruthy]

/-- C10 amended: for every rule set whose category names are all non-empty,
the regex fallback pass never changes the result: categorization equals the
same algorithm with the fallback removed.  (With an empty category name the
primary scan can choose a falsy category, re-enabling the fallback, which can
then choose a different keyword: see the counterexample.) -/
theorem C10_fallback_equiv :
    ∀ (txns : List Transaction) (rules : List (String × List (List Char))) (d : String),
      (∀ p ∈ rules, p.1 ≠ "") →
      categorize_transactions txns rules d = categorizeNoFallback txns rules d := by
  intro txns rules d hr
  simp only [categorize_transactions, categorizeNoFallback]
  refine List.map_congr_left fun t _ => ?_
  by_cases h : pyTruthy t.category = true
  · simp [categorizeOne, categorizeOneNF, h]
  · simp [categorizeOne, categorizeOneNF, h, chooseCat_no_fallback hr]

/-- Counterexample to C10 as stated: with an empty category name declared
first, the fallback pass changes the outcome ("Dining" with the fallback,
"Other" without). -/
theorem C10_cex :
    categorize_transactions [abcZedTxn] emptyCatRules "Other"
      ≠ categorizeNoFallback [abcZedTxn] emptyCatRules "Other" := by
  decide

/-- Witness for C10 at the coffee rule set (all category names non-empty). -/
theorem C10_witness :
    categorize_transactions [coffeeTxn] coffeeRules "Other"
      = categorizeNoFallback [coffeeTxn] coffeeRules "Other" :=
  C10_fallback_equiv [coffeeTxn] coffeeRules "Other" (by decide)

/-! ### Digit-run invariance of the recurring normalization profile -/

theorem lowerChar_digit {c : Char} (h : isDigitC c = true) : lowerChar c = c := by
  simp only [isDigitC, Bool.and_eq_true, decide_eq_true_eq] at h
  unfold lowerChar
  rw [if_neg]
  omega

theorem map_lower_digits {d : List Char} (h : ∀ c ∈ d, isDigitC c = true) :
    d.map lowerChar = d := by
  induction d with
  | nil => rfl
  | cons c cs ih =>
    simp [lowerChar_digit (h c (List.mem_cons_self _ _)),
      ih fun x hx => h x (List.mem_cons_of_mem _ hx)]

theorem subDigitsAux_digit_run {d : List Char} (hne : d ≠ [])
    (hall : ∀ c ∈ d, isDigitC c = true) :
    ∀ (r : List Char) (p : Bool),
      subDigitsAux p (d ++ r) = (if p then [] else [' ']) ++ subDigitsAux true r := by
  induction d with
  | nil => cases hne rfl
  | cons c cs ih =>
    intro r p
    have hc : isDigitC c = true := hall c (List.mem_cons_self _ _)
    by_cases hcs : cs = []
    · subst hcs
      simp [subDigitsAux, hc]
    · have ih2 := ih hcs (fun x hx => hall x (List.mem_cons_of_mem _ hx)) r true
      simp only [if_true, List.nil_append] at ih2
      simp only [List.cons_append, subDigitsAux, hc, if_true, List.append_eq]
      rw [ih2]

theorem subDigitsAux_replace {d1 d2 : List Char}
    (h1 : d1 ≠ []) (h2 : d2 ≠ []) (ha1 : ∀ c ∈ d1, isDigitC c = true)
    (ha2 : ∀ c ∈ d2, isDigitC c = true) :
    ∀ (a b : List Char) (p : Bool),
      subDigitsAux p (a ++ d1 ++ b) = subDigitsAux p (a ++ d2 ++ b) := by
  intro a
  induction a with
  | nil =>
    intro b p
    simp only [List.nil_append]
    rw [subDigitsAux_digit_run h1 ha1 b p, subDigitsAux_digit_run h2 ha2 b p]
  | cons c cs ih =>
    intro b p
    have ihT := ih b true
    have ihF := ih b false
    simp only [List.append_assoc] at ihT ihF
    by_cases hc : isDigitC c = true
    · simp [subDigitsAux, hc, ihT]
    · simp [subDigitsAux, hc, ihF]

theorem normalize_description_digit_runs {a b d1 d2 : List Char}
    (h1 : d1 ≠ []) (h2 : d2 ≠ []) (ha1 : ∀ c ∈ d1, isDigitC c = true)
    (ha2 : ∀ c ∈ d2, isDigitC c = true) :
    normalize_description (a ++ d1 ++ b) = normalize_description (a ++ d2 ++ b) := by
  unfold normalize_description subDigits
  rw [List.map_append, List.map_append, List.map_append, List.map_append,
    map_lower_digits ha1, map_lower_digits ha2,
    subDigitsAux_replace h1 h2 ha1 ha2 (a.map lowerChar) (b.map lowerChar) false]

/-- C9: the recurring normalization strips digit runs before the non-letter
pass, so descriptions differing only in an embedded digit run normalize
identically (and hence share a grouping key when the normalization is
non-empty); when normalization is empty the grouping key falls back to the
lowercased, trimmed original description.  The PAYPAL example keys agree. -/
theorem C9_normalization :
    (∀ a b d1 d2 : List Char, d1 ≠ [] → d2 ≠ [] →
        (∀ c ∈ d1, isDigitC c = true) → (∀ c ∈ d2, isDigitC c = true) →
        normalize_description (a ++ d1 ++ b) = normalize_description (a ++ d2 ++ b))
    ∧ (∀ desc : List Char, normalize_description desc ≠ [] →
        recurringKey desc = normalize_description desc)
    ∧ (∀ desc : List Char, normalize_description desc = [] →
        recurringKey desc = pyStrip (desc.map lowerChar))
    ∧ recurringKey ("PAYPAL *ACME 00391".toList) = recurringKey ("PAYPAL *ACME 00472".toList)
    ∧ recurringKey ("PAYPAL *ACME 00391".toList) = "paypal acme".toList := by
  refine ⟨fun a b d1 d2 h1 h2 ha1 ha2 =>
      normalize_description_digit_runs h1 h2 ha1 ha2, ?_, ?_, by decide, by decide⟩
  · intro desc h
    simp [recurringKey, h]
  · intro desc h
    simp [recurringKey, h]

/-- Witness for C9: replacing the digit run "11" by "22" inside "AB 11 CD"
leaves the normalization unchanged, and an all-digit description takes the
fallback key. -/
theorem C9_witness :
    normalize_description ("AB ".toList ++ "11".toList ++ " CD".toList)
        = normalize_description ("AB ".toList ++ "22".toList ++ " CD".toList)
    ∧ recurringKey ("123 456".toList) = pyStrip (("123 456".toList).map lowerChar) :=
  ⟨C9_normalization.1 "AB ".toList " CD".toList "11".toList "22".toList
      (by decide) (by decide) (by decide) (by decide),
   C9_normalization.2.2.1 ("123 456".toList) (by decide)⟩

/-! ### Rounding monotonicity -/

theorem round2_mono {a b : ℚ} (h : a ≤ b) : round2 a ≤ round2 b := by
  unfold round2
  have h2 : round (a * 100) ≤ round (b * 100) := by
    rw [round_eq, round_eq]
    exact Int.floor_le_floor (by linarith)
  have h3 : ((round (a * 100) : ℤ) : ℚ) ≤ ((round (b * 100) : ℤ) : ℚ) := by
    exact_mod_cast h2
  linarith

/-! ### Stable descending merchant sort -/

/-- Descending order on summed spends (ties allowed in both directions). -/
def tmGe (a b : List Char × ℚ) : Prop := b.2 ≤ a.2

theorem mem_insertTM {x b : List Char × ℚ} :
    ∀ {l : List (List Char × ℚ)}, b ∈ insertTM x l ↔ b = x ∨ b ∈ l := by
  intro l
  induction l with
  | nil => simp [insertTM]
  | cons y ys ih =>
    by_cases hc : y.2 ≤ x.2
    · simp [insertTM, hc]
    · simp only [insertTM, if_neg hc, List.mem_cons, ih]
      tauto

theorem pairwise_insertTM {x : List Char × ℚ} {l : List (List Char × ℚ)}
    (h : l.Pairwise tmGe) : (insertTM x l).Pairwise tmGe := by
  induction l with
  | nil => simp [insertTM, tmGe]
  | cons y ys ih =>
    rcases List.pairwise_cons.mp h with ⟨hy, hys⟩
    by_cases hc : y.2 ≤ x.2
    · simp only [insertTM, if_pos hc]
      refine List.pairwise_cons.mpr ⟨?_, h⟩
      intro b hb
      rcases List.mem_cons.mp hb with rfl | hb2
      · exact hc
      · exact le_trans (hy b hb2) hc
    · simp only [insertTM, if_neg hc]
      refine List.pairwise_cons.mpr ⟨?_, ih hys⟩
      intro b hb
      rcases mem_insertTM.mp hb with rfl | hb2
      · exact le_of_not_le hc
      · exact hy b hb2

theorem sortTM_pairwise : ∀ l : List (List Char × ℚ), (sortTM l).Pairwise tmGe := by
  intro l
  induction l with
  | nil => simp [sortTM]
  | cons x xs ih => exact pairwise_insertTM ih

/-- C7: the merchant ranking returns at most `n` rows, sorted by descending
total, and the tie example A 30, B 50, C 50 with `n = 2` yields exactly the
two 50-valued merchants in their original relative order. -/
theorem C7_top_merchants :
    (∀ (txns : List Transaction) (n : ℕ), (top_merchants txns n).length ≤ n)
    ∧ (∀ (txns : List Transaction) (n : ℕ),
        (top_merchants txns n).Pairwise (fun a b => b.2 ≤ a.2))
    ∧ top_merchants tmTxns 2 = [("B".toList, 50), ("C".toList, 50)] := by
  refine ⟨?_, ?_, by decide⟩
  · intro txns n
    unfold top_merchants
    rw [List.length_map, List.length_take]
    exact min_le_left _ _
  · intro txns n
    unfold top_merchants
    refine List.Pairwise.map _ (fun a b hab => round2_mono hab)
      (((sortTM_pairwise _).sublist (List.take_sublist _ _)))

/-! ### Recurring detection: tolerance window and month floor -/

/-- C2: the tolerance window of `detect_recurring` equals
`max(|median| * ratio, 1)` in all cases (including a zero median), and on the
spec's four-month example all four months are accepted, month_count is 4, and
the typical amount is the plain average 50.1. -/
theorem C2_recurring_tolerance :
    (∀ med ratio : ℚ, toleranceWindow med ratio = max (|med| * ratio) 1)
    ∧ detect_recurring recTxns 3 (15/100) = [("Acme Sub".toList, 501/10, 4)] := by
  constructor
  · intro med ratio
    unfold toleranceWindow
    by_cases h : med = 0
    · simp [h]
    · simp [h]
  · decide

theorem mem_insertRec {x b : List Char × ℚ × ℕ} :
    ∀ {l : List (List Char × ℚ × ℕ)}, b ∈ insertRec x l ↔ b = x ∨ b ∈ l := by
  intro l
  induction l with
  | nil => simp [insertRec]
  | cons y ys ih =>
    by_cases hc : y.2.2 < x.2.2 ∨ (x.2.2 = y.2.2 ∧ y.2.1 ≤ x.2.1)
    · simp [insertRec, hc]
    · simp only [insertRec, if_neg hc, List.mem_cons, ih]
      tauto

theorem mem_sortRec {b : List Char × ℚ × ℕ} :
    ∀ {l : List (List Char × ℚ × ℕ)}, b ∈ sortRec l ↔ b ∈ l := by
  intro l
  induction l with
  | nil => simp [sortRec]
  | cons x xs ih => simp [sortRec, mem_insertRec, ih]

theorem processGroup_months {mm : ℕ} {tol : ℚ}
    {names : List (List Char × List (List Char × ℕ))}
    {g : List Char × List ((ℕ × ℕ) × List ℚ)} {r : List Char × ℚ × ℕ}
    (h : processGroup mm tol names g = some r) : mm ≤ g.2.length := by
  unfold processGroup at h
  by_cases hlt :
      ((g.2.filter (fun p => !p.2.isEmpty)).map (fun p => (p.1, median p.2))).length < mm
  · rw [if_pos hlt] at h
    cases h
  · push_neg at hlt
    calc mm ≤ _ := hlt
      _ ≤ g.2.length := by
        rw [List.length_map]
        exact List.length_filter_le _ _

/-- C3: every record emitted by `detect_recurring` originates from a merchant
group whose expense transactions cover at least `min_months` distinct month
buckets; a group with fewer distinct months never appears in the output. -/
theorem C3_month_floor :
    ∀ (txns : List Transaction) (mm : ℕ) (tol : ℚ) (r : List Char × ℚ × ℕ),
      r ∈ detect_recurring txns mm tol →
      ∃ g ∈ (recGroups txns).1, mm ≤ g.2.length
        ∧ processGroup mm tol (recGroups txns).2 g = some r := by
  intro txns mm tol r hr
  simp only [detect_recurring] at hr
  rw [mem_sortRec] at hr
  rcases List.mem_filterMap.mp hr with ⟨g, hg, hpg⟩
  exact ⟨g, hg, processGroup_months hpg, hpg⟩

/-- Witness for C3 at the four-month example. -/
theorem C3_witness :
    ∃ g ∈ (recGroups recTxns).1, 3 ≤ g.2.length
      ∧ processGroup 3 (15/100) (recGroups recTxns).2 g
          = some ("Acme Sub".toList, 501/10, 4) :=
  C3_month_floor recTxns 3 (15/100) ("Acme Sub".toList, 501/10, 4) (by decide)

/-! ### Cent-valued amounts and the rounded net identity -/

/-- A rational that is an integer number of cents. -/
def CentVal (q : ℚ) : Prop := ∃ k : ℤ, q = (k : ℚ) / 100

theorem centVal_sum : ∀ {l : List ℚ}, (∀ x ∈ l, CentVal x) → CentVal l.sum := by
  intro l
  induction l with
  | nil => exact fun _ => ⟨0, by simp⟩
  | cons x xs ih =>
    intro h
    rcases h x (List.mem_cons_self _ _) with ⟨k, hk⟩
    rcases ih (fun y hy => h y (List.mem_cons_of_mem _ hy)) with ⟨m, hm⟩
    refine ⟨k + m, ?_⟩
    rw [List.sum_cons, hk, hm]
    push_cast
    ring

theorem centVal_neg {q : ℚ} (h : CentVal q) : CentVal (-q) := by
  rcases h with ⟨k, rfl⟩
  exact ⟨-k, by push_cast; ring⟩

theorem centVal_sub {a b : ℚ} (ha : CentVal a) (hb : CentVal b) : CentVal (a - b) := by
  rcases ha with ⟨k, rfl⟩
  rcases hb with ⟨m, rfl⟩
  exact ⟨k - m, by push_cast; ring⟩

theorem round2_centVal {q : ℚ} (h : CentVal q) : round2 q = q := by
  rcases h with ⟨k, rfl⟩
  unfold round2
  rw [div_mul_cancel₀ (b := (100 : ℚ)) _ (by norm_num), round_intCast]

theorem round2_zero : round2 0 = 0 := by
  unfold round2
  norm_num

/-- C8 amended: whenever every amount is a whole number of cents, the rounded
totals satisfy `net = income - expense` exactly; for sub-cent amounts the
identity fails after rounding (see the counterexample). -/
theorem C8_net_identity :
    ∀ txns : List Transaction, (∀ t ∈ txns, CentVal t.amount) →
      (summarize_income_expense txns).net
        = (summarize_income_expense txns).income - (summarize_income_expense txns).expense := by
  intro txns h
  have hincome : CentVal ((txns.filter (fun t => decide (0 < t.amount))).map (·.amount)).sum := by
    refine centVal_sum ?_
    intro x hx
    rcases List.mem_map.mp hx with ⟨t, ht, rfl⟩
    exact h t (List.mem_of_mem_filter ht)
  have hexpense :
      CentVal (-((txns.filter (fun t => decide (t.amount < 0))).map (·.amount)).sum) := by
    refine centVal_neg (centVal_sum ?_)
    intro x hx
    rcases List.mem_map.mp hx with ⟨t, ht, rfl⟩
    exact h t (List.mem_of_mem_filter ht)
  show round2 (_ - _) = round2 _ - round2 _
  rw [round2_centVal hincome, round2_centVal hexpense,
    round2_centVal (centVal_sub hincome hexpense)]

/-- Counterexample to C8 as stated: with amounts 0.006 and -0.004 the rounded
net is 0 while rounded income minus rounded expense is 0.01. -/
theorem C8_cex :
    (summarize_income_expense subCentTxns).net
      ≠ (summarize_income_expense subCentTxns).income
        - (summarize_income_expense subCentTxns).expense := by
  decide

/-- Witness for C8 at a cent-valued transaction list. -/
theorem C8_witness :
    (summarize_income_expense centTxns).net
      = (summarize_income_expense centTxns).income
        - (summarize_income_expense centTxns).expense := by
  refine C8_net_identity centTxns ?_
  intro t ht
  simp only [centTxns, List.mem_cons, List.not_mem_nil, or_false] at ht
  rcases ht with rfl | rfl
  · exact ⟨500, by norm_num⟩
  · exact ⟨-150, by norm_num⟩

/-! ### Budget usage: whole-window spend and the zero-limit rule -/

theorem spendFold_lookup (c : String) :
    ∀ (txns : List Transaction) (m : List (String × ℚ)),
      (findA (txns.foldl (fun m t =>
          if t.amount < 0 then updateA m (catOr t.category) (fun o => o.getD 0 + -t.amount)
          else m) m) c).getD 0
        = (findA m c).getD 0
          + ((txns.filter (fun t =>
              decide (t.amount < 0) && (catOr t.category == c))).map (fun t => -t.amount)).sum := by
  intro txns
  induction txns with
  | nil => intro m; simp
  | cons t ts ih =>
    intro m
    rw [List.foldl_cons]
    by_cases hneg : t.amount < 0
    · by_cases hcat : catOr t.category = c
      · have hfilter : (List.filter (fun t =>
            decide (t.amount < 0) && (catOr t.category == c)) (t :: ts))
              = t :: List.filter (fun t =>
                decide (t.amount < 0) && (catOr t.category == c)) ts := by
          simp [List.filter_cons, hneg, hcat]
        rw [if_pos hneg, ih, hfilter, List.map_cons, List.sum_cons,
          findA_updateA, if_pos hcat.symm]
        simp only [Option.getD_some]
        rw [hcat]
        ring
      · have hfilter : (List.filter (fun t =>
            decide (t.amount < 0) && (catOr t.category == c)) (t :: ts))
              = List.filter (fun t =>
                decide (t.amount < 0) && (catOr t.category == c)) ts := by
          simp [List.filter_cons, hneg, hcat]
        rw [if_pos hneg, ih, hfilter, findA_updateA,
          if_neg (fun hc => hcat hc.symm)]
    · have hfilter : (List.filter (fun t =>
          decide (t.amount < 0) && (catOr t.category == c)) (t :: ts))
            = List.filter (fun t =>
              decide (t.amount < 0) && (catOr t.category == c)) ts := by
        simp [List.filter_cons, hneg]
      rw [if_neg hneg, ih, hfilter]

theorem budget_spent_lookup (txns : List Transaction) (c : String) :
    (findA (spendPerCategory txns) c).getD 0
      = ((txns.filter (fun t =>
          decide (t.amount < 0) && (catOr t.category == c))).map (fun t => -t.amount)).sum := by
  have h := spendFold_lookup c txns []
  simpa [spendPerCategory, findA] using h

/-- C1 amended: the `spent` field of every budget-usage row is the rounded
sum of `-amount` over ALL expense transactions of that category in the input,
with no restriction to the current calendar month. -/
theorem C1_whole_window_spend :
    ∀ (txns : List Transaction) (budgets : List (String × Option ℚ)) (e : UsageEntry),
      e ∈ calculate_budget_usage txns budgets →
      e.spent = round2 (((txns.filter (fun t =>
          decide (t.amount < 0) && (catOr t.category == e.category))).map
          (fun t => -t.amount)).sum) := by
  intro txns budgets e he
  unfold calculate_budget_usage at he
  by_cases hb : budgets.isEmpty = true
  · rw [if_pos hb] at he
    cases he
  · rw [if_neg hb] at he
    rcases List.mem_filterMap.mp he with ⟨p, hp, hpe⟩
    cases hpl : p.2 with
    | none =>
      rw [hpl] at hpe
      cases hpe
    | some l =>
      rw [hpl] at hpe
      rw [Option.map_some'] at hpe
      cases hpe
      show round2 ((findA (spendPerCategory txns) p.1).getD 0) = _
      rw [budget_spent_lookup txns p.1]
      rfl

/-- The row produced for the Food budget on `budgetTxns`. -/
def foodEntry : UsageEntry :=
  { category := "Food", spent := 30, limit := 100, percent_used := 30 }

/-- Counterexample to C1 as stated: the reported spent is 30 (both months),
while the sum restricted to the month of the first transaction (2024-01) is
only 10. -/
theorem C1_cex :
    calculate_budget_usage budgetTxns budgetFood = [foodEntry]
    ∧ round2 (((budgetTxns.filter (fun t => decide (t.amount < 0)
        && (catOr t.category == "Food")
        && (month_key t.date == month_key (Date.mk 2024 1 5)))).map
        (fun t => -t.amount)).sum) = 10
    ∧ foodEntry.spent ≠ 10 := by
  refine ⟨by decide, by decide, by decide⟩

/-- Witness for C1 at the two-month Food example. -/
theorem C1_witness :
    foodEntry.spent = round2 (((budgetTxns.filter (fun t =>
        decide (t.amount < 0) && (catOr t.category == foodEntry.category))).map
        (fun t => -t.amount)).sum) :=
  C1_whole_window_spend budgetTxns budgetFood foodEntry (by decide)

/-- C6: for a configured limit of exactly 0 the produced row reports
percent_used 100 when its (nonnegative) spent is positive and 0 when it is
zero, the zero-limit branch involving no division; the spec's two concrete
vectors evaluate as stated. -/
theorem C6_zero_limit :
    (∀ (txns : List Transaction) (budgets : List (String × Option ℚ)) (c : String),
        (c, some (0 : ℚ)) ∈ budgets →
        usageEntryFor (spendPerCategory txns) c 0 ∈ calculate_budget_usage txns budgets)
    ∧ (∀ (spend : List (String × ℚ)) (c : String),
        (usageEntryFor spend c 0).percent_used
          = if 0 < (usageEntryFor spend c 0).spent then 100 else 0)
    ∧ (∀ (txns : List Transaction) (c : String),
        0 ≤ (usageEntryFor (spendPerCategory txns) c 0).spent)
    ∧ calculate_budget_usage zeroLimitTxns zeroLimitBudget
        = [{ category := "Food", spent := 5, limit := 0, percent_used := 100 }]
    ∧ calculate_budget_usage [] zeroLimitBudget
        = [{ category := "Food", spent := 0, limit := 0, percent_used := 0 }] := by
  refine ⟨?_, ?_, ?_, by decide, by decide⟩
  · intro txns budgets c hc
    unfold calculate_budget_usage
    have hne : budgets ≠ [] := by
      rintro rfl
      cases hc
    rw [if_neg (by simp [List.isEmpty_iff, hne])]
    exact List.mem_filterMap.mpr ⟨(c, some 0), hc, rfl⟩
  · intro spend c
    show (if (0 : ℚ) < 0 then round2 (round2 ((findA spend c).getD 0) / 0 * 100)
          else if 0 < round2 ((findA spend c).getD 0) then 100 else 0)
        = if 0 < (usageEntryFor spend c 0).spent then 100 else 0
    rw [if_neg (lt_irrefl (0 : ℚ))]
    rfl
  · intro txns c
    show (0 : ℚ) ≤ round2 ((findA (spendPerCategory txns) c).getD 0)
    rw [budget_spent_lookup txns c]
    have hs : (0 : ℚ) ≤ ((txns.filter (fun t =>
        decide (t.amount < 0) && (catOr t.category == c))).map (fun t => -t.amount)).sum := by
      refine List.sum_nonneg ?_
      intro x hx
      rcases List.mem_map.mp hx with ⟨t, ht, rfl⟩
      have h2 := List.of_mem_filter ht
      simp only [Bool.and_eq_true, decide_eq_true_eq] at h2
      linarith [h2.1]
    calc (0 : ℚ) = round2 0 := round2_zero.symm
      _ ≤ _ := round2_mono hs

/-- Witness for C6 at the zero-limit Food budget. -/
theorem C6_witness :
    usageEntryFor (spendPerCategory zeroLimitTxns) "Food" 0
      ∈ calculate_budget_usage zeroLimitTxns zeroLimitBudget :=
  C6_zero_limit.1 zeroLimitTxns zeroLimitBudget "Food" (by decide)

end FinanceAnalyzer

